import Mathlib

/-!
# Verification of the autocuber cube core (`src/backend/src/cube.rs`)

A shallow embedding of the NxN twisty-cube model: the primitive enumerations,
the move notation parser and printer, the `Face`/`Cube` geometric engine, and
`MoveSequence` canonicalisation, together with proofs of the testable
properties stated in the specification.

Conventions of the embedding:
* Rust enums become Lean inductives with the same constructor names.
* `Face<N>` stores its `N x N` grid of colours as a curried function
  `Fin N → Fin N → Colour` (row-major, like the Rust `rows` array); the
  imperative row/column writes of the Rust code become pointwise updates.
* Machine integers: Rust `usize` depths become `Nat`; the signed quarter-turn
  counter (`i32`) becomes `Int`.  Rust's `%` on `i32` is truncated remainder,
  i.e. `Int.tmod`.
* Fallible code (`FromStr`) returns `Option` (Rust's `Result<_, ()>`).
-/

set_option maxHeartbeats 1000000

namespace Autocuber

/-- The colour of a face on an NxN cube (`enum Colour` in `cube.rs`). -/
inductive Colour where
  | Green
  | Red
  | White
  | Blue
  | Orange
  | Yellow
deriving DecidableEq, Fintype

/-- A face slot on a cube, in Singmaster notation (`enum FaceType`). -/
inductive FaceType where
  | F
  | R
  | U
  | B
  | L
  | D
deriving DecidableEq, Fintype

/-- Rust `impl FromStr for FaceType`. -/
def FaceType.from_str (s : String) : Option FaceType :=
  match s with
  | "F" => some .F
  | "R" => some .R
  | "U" => some .U
  | "B" => some .B
  | "L" => some .L
  | "D" => some .D
  | _ => none

/-- Rust `impl From<FaceType> for Colour`: the Rust code transmutes matching
discriminants; we spell the induced total mapping out (face `i` maps to
colour `i` in declaration order). -/
def FaceType.colour : FaceType → Colour
  | .F => .Green
  | .R => .Red
  | .U => .White
  | .B => .Blue
  | .L => .Orange
  | .D => .Yellow

/-- One of twelve edge types on a cube (`enum EdgeType`); the "key sticker"
face is written first. -/
inductive EdgeType where
  | UR | UF | UL | UB
  | DR | DF | DL | DB
  | FR | FL | BR | BL
deriving DecidableEq, Fintype

/-- An axis on a cube (`enum Axis`). -/
inductive Axis where
  | FB
  | RL
  | UD
deriving DecidableEq, Fintype

/-- Rust `enum RotationType`: a quarter turn clockwise, a half turn, or a quarter
turn anticlockwise (viewed from the axis's positive face). -/
inductive RotationType where
  | Normal
  | Double
  | Inverse
deriving DecidableEq, Fintype

/-- Rust `RotationType::inverse`. -/
def RotationType.inverse : RotationType → RotationType
  | .Normal => .Inverse
  | .Double => .Double
  | .Inverse => .Normal

/-- Rust `RotationType::rotations`: the signed quarter-turn count. -/
def RotationType.rotations : RotationType → Int
  | .Normal => 1
  | .Double => 2
  | .Inverse => -1

/-- Rust `RotationType::from_rotations`: `None` is returned if no rotation was
required.  Rust `%` on `i32` is truncated remainder (`Int.tmod`); the final
wildcard models the Rust `unreachable!()` arm (it is never hit). -/
def RotationType.from_rotations (n : Int) : Option RotationType :=
  match (n.tmod 4 + 4).tmod 4 with
  | 0 => none
  | 1 => some .Normal
  | 2 => some .Double
  | 3 => some .Inverse
  | _ => none

/-- Rust `impl Display for RotationType`. -/
def RotationType.toStr : RotationType → String
  | .Normal => ""
  | .Double => "2"
  | .Inverse => "'"

/-- Modelled from the spec: the `CyclicGroup` value type lives in the crate's
`group` module, which is not among the given sources.  The spec describes it as
"a small cyclic-group-of-order-2 value for parity", "an element of a 2-element
cyclic group"; `CyclicGroup::new(k)` constructs the element `k` (mod `n`). -/
structure CyclicGroup (n : Nat) [NeZero n] where
  val : Fin n
deriving DecidableEq

/-- Modelled from the spec: `CyclicGroup::new`. -/
def CyclicGroup.new (n : Nat) [NeZero n] (k : Nat) : CyclicGroup n :=
  ⟨Fin.ofNat' n k⟩

/-- Rust `EdgeType::from_faces_ordered`: the first face must be the key sticker
(it precedes the second face in the edge's name), otherwise `None`. -/
def EdgeType.from_faces_ordered (f1 f2 : FaceType) : Option EdgeType :=
  match f1, f2 with
  | .U, .R => some .UR
  | .U, .F => some .UF
  | .U, .L => some .UL
  | .U, .B => some .UB
  | .D, .R => some .DR
  | .D, .F => some .DF
  | .D, .L => some .DL
  | .D, .B => some .DB
  | .F, .R => some .FR
  | .F, .L => some .FL
  | .B, .R => some .BR
  | .B, .L => some .BL
  | _, _ => none

/-- Rust `EdgeType::from_faces`: the edge formed from the intersection of the two
faces, along with the parity of the given edge; the parity is reversed if the
input faces are reversed. -/
def EdgeType.from_faces (f1 f2 : FaceType) : Option (EdgeType × CyclicGroup 2) :=
  match EdgeType.from_faces_ordered f1 f2 with
  | some value => some (value, CyclicGroup.new 2 0)
  | none => (EdgeType.from_faces_ordered f2 f1).map (fun x => (x, CyclicGroup.new 2 1))

/-- Rust `struct Move`: turns all slices from `start_depth` to `end_depth`
(exclusive) about `axis` by `rotation_type`. -/
structure Move where
  axis : Axis
  rotation_type : RotationType
  start_depth : Nat
  end_depth : Nat
deriving DecidableEq

/-- Rust `Move::inverse`. -/
def Move.inverse (m : Move) : Move :=
  { m with rotation_type := m.rotation_type.inverse }

/-- The `turn_direction` mapping at the start of `impl FromStr for Move`:
slice letters M/E/S turn in the direction of the L/D/F faces. -/
def Move.turnDirection (face_char : Char) : Char :=
  match face_char with
  | 'M' => 'L'
  | 'E' => 'D'
  | 'S' => 'F'
  | x => x

/-- The modifier loop of `impl FromStr for Move`: starting from the given
`end_depth` and `rotation_type`, process each remaining character.  `w` forces
`end_depth` to 2, `2` sets a double turn, `'` sets an inverse turn unless the
turn is already double; anything else is a parse failure. -/
def Move.applyMods : List Char → Nat → RotationType → Option (Nat × RotationType)
  | [], end_depth, rotation_type => some (end_depth, rotation_type)
  | c :: cs, end_depth, rotation_type =>
    if c = 'w' then Move.applyMods cs 2 rotation_type
    else if c = '2' then Move.applyMods cs end_depth RotationType.Double
    else if c = '\'' then
      Move.applyMods cs end_depth
        (if rotation_type ≠ RotationType.Double then RotationType.Inverse else rotation_type)
    else none

/-- The body of `impl FromStr for Move`, working on the token's character
list.  Note the hard-coded `const N: usize = 3` used to mirror the depth range
for the back-half faces B, L, D. -/
def Move.fromChars : List Char → Option Move
  | [] => none
  | face_char :: chars =>
    let N : Nat := 3
    match FaceType.from_str (String.mk [(Move.turnDirection face_char).toUpper]) with
    | none => none
    | some face =>
      let end_depth0 : Nat := if face_char.isLower then 2 else 1
      let sd_ed : Nat × Nat :=
        match face_char with
        | 'M' | 'E' | 'S' => (1, 2)
        | _ => (0, end_depth0)
      match Move.applyMods chars sd_ed.2 RotationType.Normal with
      | none => none
      | some (end_depth, rotation_type) =>
        match face with
        | .F => some ⟨.FB, rotation_type, sd_ed.1, end_depth⟩
        | .R => some ⟨.RL, rotation_type, sd_ed.1, end_depth⟩
        | .U => some ⟨.UD, rotation_type, sd_ed.1, end_depth⟩
        | .B => some ⟨.FB, rotation_type.inverse, N - end_depth, N - sd_ed.1⟩
        | .L => some ⟨.RL, rotation_type.inverse, N - end_depth, N - sd_ed.1⟩
        | .D => some ⟨.UD, rotation_type.inverse, N - end_depth, N - sd_ed.1⟩

/-- Rust `impl FromStr for Move`. -/
def Move.from_str (s : String) : Option Move :=
  Move.fromChars s.data

/-- Debug rendering of an axis (Rust's derived `Debug`), used by the display
fallback for non-canonical depth ranges. -/
def Axis.debugStr : Axis → String
  | .FB => "FB"
  | .RL => "RL"
  | .UD => "UD"

/-- Rust `impl Display for Move`: the three canonical depth ranges print in
Singmaster notation (with an inverted rotation suffix for slice and far-face
letters), anything else falls back to a debug-style rendering. -/
def Move.toStr (m : Move) : String :=
  match m.start_depth, m.end_depth with
  | 0, 1 =>
    (match m.axis with
     | .FB => "F" | .RL => "R" | .UD => "U") ++ m.rotation_type.toStr
  | 1, 2 =>
    match m.axis with
    | .FB => "S" ++ m.rotation_type.toStr
    | .RL => "M" ++ m.rotation_type.inverse.toStr
    | .UD => "E" ++ m.rotation_type.inverse.toStr
  | 2, 3 =>
    match m.axis with
    | .FB => "B" ++ m.rotation_type.inverse.toStr
    | .RL => "L" ++ m.rotation_type.inverse.toStr
    | .UD => "D" ++ m.rotation_type.inverse.toStr
  | _, _ =>
    m.axis.debugStr ++ toString m.start_depth ++ "-" ++ toString m.end_depth
      ++ m.rotation_type.toStr

/-- Rust `struct MoveSequence`: an ordered list of moves, applied left to right. -/
structure MoveSequence where
  moves : List Move
deriving DecidableEq

/-- The token loop of `impl FromStr for MoveSequence`: parse each token,
propagating the first failure (the `?` in the Rust loop). -/
def MoveSequence.parseTokens : List String → Option (List Move)
  | [] => some []
  | t :: ts =>
    match Move.from_str t with
    | none => none
    | some m => (MoveSequence.parseTokens ts).map (fun ms => m :: ms)

/-- Rust's `str::split(' ')` semantics on a character list: tokens are the
maximal (possibly empty) runs between space characters; the empty input gives
one empty token. -/
def splitSpaces : List Char → List (List Char)
  | [] => [[]]
  | c :: cs =>
    match splitSpaces cs with
    | [] => [[]]
    | t :: ts => if c = ' ' then [] :: t :: ts else (c :: t) :: ts

/-- Rust `impl FromStr for MoveSequence`: split on single spaces and parse every
token. -/
def MoveSequence.from_str (s : String) : Option MoveSequence :=
  (MoveSequence.parseTokens ((splitSpaces s.data).map String.mk)).map MoveSequence.mk

/-- The shape `impl FromStr for Move` reduces to for a front-half face letter
(F, R, U or their lowercase forms) followed by `mods`, where `E` is the
initial end depth determined by the letter. -/
def frontParse (ax : Axis) (E : Nat) (mods : List Char) : Option Move :=
  match Move.applyMods mods E RotationType.Normal with
  | none => none
  | some (e, r) => some ⟨ax, r, 0, e⟩

/-- The shape `impl FromStr for Move` reduces to for a back-half face letter
(B, L, D or their lowercase forms) followed by `mods`: the rotation is
inverted and the depth range is mirrored at the hard-coded layer count 3. -/
def backParse (ax : Axis) (E : Nat) (mods : List Char) : Option Move :=
  match Move.applyMods mods E RotationType.Normal with
  | none => none
  | some (e, r) => some ⟨ax, r.inverse, 3 - e, 3 - 0⟩

/-- A face of an NxN cube (`struct Face<N>`): an N×N grid of colours,
row-major; `rows r c` is the sticker in row `r`, column `c`. -/
structure Face (N : Nat) where
  rows : Fin N → Fin N → Colour

instance {N : Nat} : DecidableEq (Face N) := fun a b =>
  decidable_of_iff (a.rows = b.rows) (by cases a; cases b; simp)

/-- A segment (edge strip direction) of a face (`enum FaceSegment`). -/
inductive FaceSegment where
  | Top
  | Right
  | Bottom
  | Left
deriving DecidableEq

/-- Rust `Face::new`: a face filled with the face type's colour. -/
def Face.new {N : Nat} (ty : FaceType) : Face N :=
  ⟨fun _ _ => ty.colour⟩

/-- Rust `Face::row`. -/
def Face.row {N : Nat} (f : Face N) (r : Fin N) : Fin N → Colour :=
  fun i => f.rows r i

/-- Rust `Face::row_rev`: `row_rev(r)(i) = self[(r, N - 1 - i)]`. -/
def Face.row_rev {N : Nat} (f : Face N) (r : Fin N) : Fin N → Colour :=
  fun i => f.rows r i.rev

/-- Rust `Face::col`. -/
def Face.col {N : Nat} (f : Face N) (c : Fin N) : Fin N → Colour :=
  fun i => f.rows i c

/-- Rust `Face::col_rev`: `col_rev(c)(i) = self[(N - 1 - i, c)]`. -/
def Face.col_rev {N : Nat} (f : Face N) (c : Fin N) : Fin N → Colour :=
  fun i => f.rows i.rev c

/-- Rust `Face::rotate_cw`: row `i` of the result is `col_rev(i)`. -/
def Face.rotate_cw {N : Nat} (f : Face N) : Face N :=
  ⟨fun i j => f.col_rev i j⟩

/-- Rust `Face::rotate_ccw`: row `i` of the result is `col(N - 1 - i)`. -/
def Face.rotate_ccw {N : Nat} (f : Face N) : Face N :=
  ⟨fun i j => f.col i.rev j⟩

/-- Rust `Face::rotate_double`: row `i` of the result is `row_rev(N - 1 - i)`. -/
def Face.rotate_double {N : Nat} (f : Face N) : Face N :=
  ⟨fun i j => f.row_rev i.rev j⟩

/-- Rust `Face::overwrite_from`: for each layer index `i` in
`[start_depth, end_depth)`, copy one line of the source face's
`source_type` segment over the corresponding line of the target's
`target_type` segment, reversing the line when the two segments' clockwise
senses differ.  The Rust loop writes row `i` (segment Top), row `N-1-i`
(Bottom), column `N-1-i` (Right) or column `i` (Left); since distinct `i`
write disjoint lines and all reads are from `source`, the loop is rendered
pointwise: a sticker is overwritten exactly when its line index lies in the
depth range. -/
def Face.overwrite_from {N : Nat} (self : Face N) (start_depth end_depth : Nat)
    (target_type : FaceSegment) (source : Face N) (source_type : FaceSegment) :
    Face N :=
  let source_clockwise : Bool :=
    match source_type with
    | .Top | .Right => true
    | .Bottom | .Left => false
  let target_clockwise : Bool :=
    match target_type with
    | .Top | .Right => true
    | .Bottom | .Left => false
  let reverse_direction : Bool := source_clockwise != target_clockwise
  -- the line copied for layer index `i` (the Rust `source_row`, with
  -- `j = N - 1 - i` written as `i.rev`)
  let source_row : Fin N → Fin N → Colour := fun i =>
    match source_type, reverse_direction with
    | .Top, false => source.row i
    | .Top, true => source.row_rev i
    | .Right, false => source.col i.rev
    | .Right, true => source.col_rev i.rev
    | .Bottom, false => source.row i.rev
    | .Bottom, true => source.row_rev i.rev
    | .Left, false => source.col i
    | .Left, true => source.col_rev i
  match target_type with
  | .Top =>
    ⟨fun r c => if start_depth ≤ (r : Nat) ∧ (r : Nat) < end_depth
       then source_row r c else self.rows r c⟩
  | .Right =>
    ⟨fun r c => if start_depth ≤ (c.rev : Nat) ∧ (c.rev : Nat) < end_depth
       then source_row c.rev r else self.rows r c⟩
  | .Bottom =>
    ⟨fun r c => if start_depth ≤ (r.rev : Nat) ∧ (r.rev : Nat) < end_depth
       then source_row r.rev c else self.rows r c⟩
  | .Left =>
    ⟨fun r c => if start_depth ≤ (c : Nat) ∧ (c : Nat) < end_depth
       then source_row c r else self.rows r c⟩

/-- Rust `struct Cube<N>`: the six faces, indexed by `FaceType` (the Rust array is
ordered F R U B L D and indexed by the face type's discriminant). -/
structure Cube (N : Nat) where
  faces : FaceType → Face N

instance {N : Nat} : DecidableEq (Cube N) := fun a b =>
  decidable_of_iff (a.faces = b.faces) (by cases a; cases b; simp)

/-- Rust `Cube::new`: the solved cube. -/
def Cube.new {N : Nat} : Cube N :=
  ⟨fun ty => Face.new ty⟩

/-- Rust `Cube::face`. -/
def Cube.face {N : Nat} (c : Cube N) (ty : FaceType) : Face N :=
  c.faces ty

/-- Rust `Cube::perform`: the nine fixed transfer patterns (3 axes × 3 rotation
kinds).  Each pattern gives, for every face: a depth-conditional whole-face
rotation (`start_depth == 0` for the positive perpendicular face,
`end_depth == N` for the negative one) or an `overwrite_from` transfer from a
neighbouring face, exactly as in the `perform!` macro table of `cube.rs`. -/
def Cube.perform {N : Nat} (self : Cube N) (mv : Move) : Cube N :=
  match mv with
  -- FB turns
  | ⟨.FB, .Normal, start_depth, end_depth⟩ =>
    ⟨fun ft =>
      match ft with
      | .F => if start_depth = 0 then (self.face .F).rotate_cw else self.face .F
      | .R => (self.face .R).overwrite_from start_depth end_depth .Left (self.face .U) .Bottom
      | .U => (self.face .U).overwrite_from start_depth end_depth .Bottom (self.face .L) .Right
      | .B => if end_depth = N then (self.face .B).rotate_cw else self.face .B
      | .L => (self.face .L).overwrite_from start_depth end_depth .Right (self.face .D) .Top
      | .D => (self.face .D).overwrite_from start_depth end_depth .Top (self.face .R) .Left⟩
  | ⟨.FB, .Double, start_depth, end_depth⟩ =>
    ⟨fun ft =>
      match ft with
      | .F => if start_depth = 0 then (self.face .F).rotate_double else self.face .F
      | .R => (self.face .R).overwrite_from start_depth end_depth .Left (self.face .L) .Right
      | .U => (self.face .U).overwrite_from start_depth end_depth .Bottom (self.face .D) .Top
      | .B => if end_depth = N then (self.face .B).rotate_double else self.face .B
      | .L => (self.face .L).overwrite_from start_depth end_depth .Right (self.face .R) .Left
      | .D => (self.face .D).overwrite_from start_depth end_depth .Top (self.face .U) .Bottom⟩
  | ⟨.FB, .Inverse, start_depth, end_depth⟩ =>
    ⟨fun ft =>
      match ft with
      | .F => if start_depth = 0 then (self.face .F).rotate_ccw else self.face .F
      | .R => (self.face .R).overwrite_from start_depth end_depth .Left (self.face .D) .Top
      | .U => (self.face .U).overwrite_from start_depth end_depth .Bottom (self.face .R) .Left
      | .B => if end_depth = N then (self.face .B).rotate_ccw else self.face .B
      | .L => (self.face .L).overwrite_from start_depth end_depth .Right (self.face .U) .Bottom
      | .D => (self.face .D).overwrite_from start_depth end_depth .Top (self.face .L) .Right⟩
  -- RL turns
  | ⟨.RL, .Normal, start_depth, end_depth⟩ =>
    ⟨fun ft =>
      match ft with
      | .F => (self.face .F).overwrite_from start_depth end_depth .Right (self.face .D) .Right
      | .R => if start_depth = 0 then (self.face .R).rotate_cw else self.face .R
      | .U => (self.face .U).overwrite_from start_depth end_depth .Right (self.face .F) .Right
      | .B => (self.face .B).overwrite_from start_depth end_depth .Left (self.face .U) .Right
      | .L => if end_depth = N then (self.face .L).rotate_cw else self.face .L
      | .D => (self.face .D).overwrite_from start_depth end_depth .Right (self.face .B) .Left⟩
  | ⟨.RL, .Double, start_depth, end_depth⟩ =>
    ⟨fun ft =>
      match ft with
      | .F => (self.face .F).overwrite_from start_depth end_depth .Right (self.face .B) .Left
      | .R => if start_depth = 0 then (self.face .R).rotate_double else self.face .R
      | .U => (self.face .U).overwrite_from start_depth end_depth .Right (self.face .D) .Right
      | .B => (self.face .B).overwrite_from start_depth end_depth .Left (self.face .F) .Right
      | .L => if end_depth = N then (self.face .L).rotate_double else self.face .L
      | .D => (self.face .D).overwrite_from start_depth end_depth .Right (self.face .U) .Right⟩
  | ⟨.RL, .Inverse, start_depth, end_depth⟩ =>
    ⟨fun ft =>
      match ft with
      | .F => (self.face .F).overwrite_from start_depth end_depth .Right (self.face .U) .Right
      | .R => if start_depth = 0 then (self.face .R).rotate_ccw else self.face .R
      | .U => (self.face .U).overwrite_from start_depth end_depth .Right (self.face .B) .Left
      | .B => (self.face .B).overwrite_from start_depth end_depth .Left (self.face .D) .Right
      | .L => if end_depth = N then (self.face .L).rotate_ccw else self.face .L
      | .D => (self.face .D).overwrite_from start_depth end_depth .Right (self.face .F) .Right⟩
  -- UD turns
  | ⟨.UD, .Normal, start_depth, end_depth⟩ =>
    ⟨fun ft =>
      match ft with
      | .F => (self.face .F).overwrite_from start_depth end_depth .Top (self.face .R) .Top
      | .R => (self.face .R).overwrite_from start_depth end_depth .Top (self.face .B) .Top
      | .U => if start_depth = 0 then (self.face .U).rotate_cw else self.face .U
      | .B => (self.face .B).overwrite_from start_depth end_depth .Top (self.face .L) .Top
      | .L => (self.face .L).overwrite_from start_depth end_depth .Top (self.face .F) .Top
      | .D => if end_depth = N then (self.face .D).rotate_cw else self.face .D⟩
  | ⟨.UD, .Double, start_depth, end_depth⟩ =>
    ⟨fun ft =>
      match ft with
      | .F => (self.face .F).overwrite_from start_depth end_depth .Top (self.face .B) .Top
      | .R => (self.face .R).overwrite_from start_depth end_depth .Top (self.face .L) .Top
      | .U => if start_depth = 0 then (self.face .U).rotate_double else self.face .U
      | .B => (self.face .B).overwrite_from start_depth end_depth .Top (self.face .F) .Top
      | .L => (self.face .L).overwrite_from start_depth end_depth .Top (self.face .R) .Top
      | .D => if end_depth = N then (self.face .D).rotate_double else self.face .D⟩
  | ⟨.UD, .Inverse, start_depth, end_depth⟩ =>
    ⟨fun ft =>
      match ft with
      | .F => (self.face .F).overwrite_from start_depth end_depth .Top (self.face .L) .Top
      | .R => (self.face .R).overwrite_from start_depth end_depth .Top (self.face .F) .Top
      | .U => if start_depth = 0 then (self.face .U).rotate_ccw else self.face .U
      | .B => (self.face .B).overwrite_from start_depth end_depth .Top (self.face .R) .Top
      | .L => (self.face .L).overwrite_from start_depth end_depth .Top (self.face .B) .Top
      | .D => if end_depth = N then (self.face .D).rotate_ccw else self.face .D⟩

/-- The solved 3×3 cube (`Cube::<3>::new()`). -/
def solved3 : Cube 3 :=
  Cube.new

/-- The move the token `"F"` parses to. -/
def fMove3 : Move :=
  ⟨.FB, .Normal, 0, 1⟩

/-- The solved 3×3 cube after performing the move parsed from `"F"`. -/
def fTurned3 : Cube 3 :=
  solved3.perform fMove3

/-- A sticker position on an NxN cube: a face and a (row, column) pair. -/
abbrev Pos (N : Nat) := FaceType × Fin N × Fin N

/-- The colour at a sticker position. -/
def Cube.sticker {N : Nat} (c : Cube N) (p : Pos N) : Colour :=
  (c.face p.1).rows p.2.1 p.2.2

/-- The position a sticker is *read from* when the slice containing it is
turned one quarter clockwise about the given axis (as seen from the axis's
positive face).  Extracted from the nine transfer patterns of
`Cube::perform`. -/
def axStep (a : Axis) {N : Nat} : Pos N → Pos N
  | (f, r, c) =>
    match a, f with
    | .FB, .F => (.F, c.rev, r)
    | .FB, .R => (.U, c.rev, r)
    | .FB, .U => (.L, c.rev, r)
    | .FB, .B => (.B, c.rev, r)
    | .FB, .L => (.D, c.rev, r)
    | .FB, .D => (.R, c.rev, r)
    | .RL, .F => (.D, r, c)
    | .RL, .R => (.R, c.rev, r)
    | .RL, .U => (.F, r, c)
    | .RL, .B => (.U, r.rev, c.rev)
    | .RL, .L => (.L, c.rev, r)
    | .RL, .D => (.B, r.rev, c.rev)
    | .UD, .F => (.R, r, c)
    | .UD, .R => (.B, r, c)
    | .UD, .U => (.U, c.rev, r)
    | .UD, .B => (.L, r, c)
    | .UD, .L => (.F, r, c)
    | .UD, .D => (.D, c.rev, r)

/-- Iterated `axStep`. -/
def axStepPow (a : Axis) {N : Nat} : Nat → Pos N → Pos N
  | 0, p => p
  | k + 1, p => axStep a (axStepPow a k p)

/-- The layer depth (slice index along the axis) a sticker position belongs
to: depth 0 is adjacent to the axis's positive face (F/R/U), depth `N-1` to
the negative face (B/L/D); the two perpendicular faces count as depth 0 and
`N-1` respectively, matching the depth-conditional whole-face rotations of
`Cube::perform`. -/
def axSlice (a : Axis) {N : Nat} : Pos N → Nat
  | (f, r, c) =>
    match a, f with
    | .FB, .F => 0
    | .FB, .R => (c : Nat)
    | .FB, .U => (r.rev : Nat)
    | .FB, .B => N - 1
    | .FB, .L => (c.rev : Nat)
    | .FB, .D => (r : Nat)
    | .RL, .F => (c.rev : Nat)
    | .RL, .R => 0
    | .RL, .U => (c.rev : Nat)
    | .RL, .B => (c : Nat)
    | .RL, .L => N - 1
    | .RL, .D => (c.rev : Nat)
    | .UD, .F => (r : Nat)
    | .UD, .R => (r : Nat)
    | .UD, .U => 0
    | .UD, .B => (r : Nat)
    | .UD, .L => (r : Nat)
    | .UD, .D => N - 1

/-- The number of quarter turns a rotation kind performs (Inverse = 3). -/
def RotationType.quarters : RotationType → Nat
  | .Normal => 1
  | .Double => 2
  | .Inverse => 3

/-- The map `axStep` iterated a signed quarter-turn count (reduced mod 4). -/
def stepPowMod (a : Axis) {N : Nat} (t : Int) (p : Pos N) : Pos N :=
  axStepPow a (t % 4).toNat p

/-- A move's depth range is well-formed for an N-layer cube when it is
nonempty and within the cube (spec §7: `start_depth < end_depth ≤ N`). -/
def Move.wf (N : Nat) (m : Move) : Prop :=
  m.start_depth < m.end_depth ∧ m.end_depth ≤ N

instance {N : Nat} {m : Move} : Decidable (m.wf N) :=
  decidable_of_iff (m.start_depth < m.end_depth ∧ m.end_depth ≤ N) Iff.rfl

/-- The net signed quarter-turn count the moves of `ms` apply to layer `i`
(what the accumulation loop of `process_axis` adds up per slice). -/
def sliceContrib (ms : List Move) (i : Nat) : Int :=
  (ms.map (fun mv =>
    if mv.start_depth ≤ i ∧ i < mv.end_depth then mv.rotation_type.rotations else 0)).sum

/-- Whether some move of `ms` turns layer `i` (i.e. whether the
`turns_by_slice` map of `process_axis` has an entry for `i`). -/
def touches (ms : List Move) (i : Nat) : Bool :=
  ms.any (fun mv => decide (mv.start_depth ≤ i ∧ i < mv.end_depth))

/-- An upper bound for the layer indices touched by `ms`. -/
def maxEnd (ms : List Move) : Nat :=
  ms.foldl (fun acc mv => max acc mv.end_depth) 0

/-- The contents of the `turns_by_slice` HashMap built by `process_axis`,
listed in ascending key order.  (Rust iterates the HashMap in unspecified
order; spec §4.2 step 2 requires the accumulated per-layer counts to be
visited in ascending layer-index order, which this model adopts.) -/
def turnsBySlice (ms : List Move) : List (Nat × Int) :=
  ((List.range (maxEnd ms)).filter (fun i => touches ms i)).map
    (fun i => (i, sliceContrib ms i))

/-- The coalescing loop of `process_axis`: walk the per-slice entries,
extending the current wide move while the slice index and rotation count
continue the run, and otherwise emitting the finished wide move (dropped when
its net rotation is a multiple of 4); after the loop the pending move is
emitted. -/
def emitLoop (a : Axis) :
    List (Nat × Int) → List Move → Nat → Nat → Int → List Move
  | [], new_moves, current_start_slice, expected_slice, expected_rotations =>
    new_moves ++
      (match RotationType.from_rotations expected_rotations with
       | some rotation_type =>
         [⟨a, rotation_type, current_start_slice, expected_slice⟩]
       | none => [])
  | (slice, rotations) :: rest, new_moves, current_start_slice, expected_slice,
      expected_rotations =>
    if slice = expected_slice ∧ rotations = expected_rotations then
      emitLoop a rest new_moves current_start_slice (expected_slice + 1)
        expected_rotations
    else
      emitLoop a rest
        (new_moves ++
          (match RotationType.from_rotations expected_rotations with
           | some rotation_type =>
             [⟨a, rotation_type, current_start_slice, expected_slice⟩]
           | none => []))
        slice (slice + 1) rotations

/-- Rust `process_axis` in `MoveSequence::canonicalise`: canonicalise one maximal
run of same-axis moves.  The initial loop state is read from the first map
entry (the Rust `.iter().next().unwrap()`, which panics on an empty map —
unreachable for a nonempty run of well-formed moves; this model returns no
moves in that case). -/
def processAxis (a : Axis) (current_axis_moves : List Move) : List Move :=
  match turnsBySlice current_axis_moves with
  | [] => []
  | (k, v) :: rest => emitLoop a ((k, v) :: rest) [] k k v

/-- The run loop of `MoveSequence::canonicalise`: walk the moves carrying
`(moves, current_axis, current_axis_moves)`; when the axis changes, the
finished run is canonicalised by `process_axis` and appended to the output,
and a new run is started. -/
def canonFold : List Move → List Move × Axis × List Move → List Move × Axis × List Move
  | [], st => st
  | mv :: rest, (moves, current_axis, current_axis_moves) =>
    if mv.axis ≠ current_axis then
      canonFold rest
        (moves ++ processAxis current_axis current_axis_moves, mv.axis, [mv])
    else
      canonFold rest (moves, current_axis, current_axis_moves ++ [mv])

/-- Rust `MoveSequence::canonicalise`: an empty sequence is returned unchanged;
otherwise every maximal same-axis run is coalesced, with the final run
processed after the loop.  (The trailing Rust
`moves.extend(current_axis_moves)` appends a vector just emptied by
`std::mem::take`, so it adds nothing.) -/
def MoveSequence.canonicalise (s : MoveSequence) : MoveSequence :=
  match s.moves with
  | [] => s
  | m0 :: _ =>
    let st := canonFold s.moves ([], m0.axis, [])
    ⟨st.1 ++ processAxis st.2.1 st.2.2⟩

/-- Apply a list of moves left to right (`perform_all` on the underlying
list). -/
def performAllL {N : Nat} (c : Cube N) (ms : List Move) : Cube N :=
  ms.foldl Cube.perform c

/-- Apply every move of a sequence in order: the spec's `perform_all`. -/
def Cube.perform_all {N : Nat} (c : Cube N) (s : MoveSequence) : Cube N :=
  s.moves.foldl Cube.perform c

/-- The four-move sequence `F R R' F`. -/
def frrfSeq : MoveSequence :=
  ⟨[⟨.FB, .Normal, 0, 1⟩, ⟨.RL, .Normal, 0, 1⟩, ⟨.RL, .Inverse, 0, 1⟩,
    ⟨.FB, .Normal, 0, 1⟩]⟩

/-- The total value the entry list assigns to key `i` (for a map, the looked
up value, or 0 when absent). -/
def entryVal (entries : List (Nat × Int)) (i : Nat) : Int :=
  (entries.map (fun e => if e.1 = i then e.2 else 0)).sum

lemma tmod_norm (n : Int) : (n.tmod 4 + 4).tmod 4 = n % 4 := by
  rcases n with m | m
  · have h1 : (Int.ofNat m).tmod 4 = Int.ofNat (m % 4) := rfl
    rw [h1]
    have h2 : (Int.ofNat (m % 4) + 4) = Int.ofNat (m % 4 + 4) := by simp
    rw [h2]
    have h3 : (Int.ofNat (m % 4 + 4)).tmod 4 = Int.ofNat ((m % 4 + 4) % 4) := rfl
    rw [h3]
    have h4 : (m % 4 + 4) % 4 = m % 4 := by omega
    rw [h4]
    simp only [Int.ofNat_eq_natCast]
    omega
  · have h1 : (Int.negSucc m).tmod 4 = -Int.ofNat ((m + 1) % 4) := rfl
    rw [h1]
    simp only [Int.ofNat_eq_natCast]
    rw [Int.tmod_eq_emod (by omega) (by norm_num)]
    have h5 : Int.negSucc m = -((m : Int) + 1) := by simp [Int.negSucc_eq]
    rw [h5]
    omega

lemma from_rotations_emod (n : Int) :
    RotationType.from_rotations n =
      if n % 4 = 0 then none
      else if n % 4 = 1 then some .Normal
      else if n % 4 = 2 then some .Double
      else some .Inverse := by
  rw [RotationType.from_rotations, tmod_norm]
  have h : n % 4 = 0 ∨ n % 4 = 1 ∨ n % 4 = 2 ∨ n % 4 = 3 := by omega
  rcases h with h | h | h | h <;> rw [h] <;> simp

/-- C7: `RotationType::from_rotations` is periodic with period 4; `0`, `4`
and every other multiple of 4 (also negative) map to `None`, `-1` maps to
`Some(Inverse)`, and in general the residue of `n` mod 4 selects `None`,
`Normal`, `Double` or `Inverse`. -/
theorem from_rotations_period_four :
    (∀ n : Int, RotationType.from_rotations n = RotationType.from_rotations (n + 4))
    ∧ RotationType.from_rotations 0 = none
    ∧ RotationType.from_rotations 4 = none
    ∧ RotationType.from_rotations (-1) = some RotationType.Inverse
    ∧ (∀ n : Int, RotationType.from_rotations n =
        if n % 4 = 0 then none
        else if n % 4 = 1 then some RotationType.Normal
        else if n % 4 = 2 then some RotationType.Double
        else some RotationType.Inverse) := by
  refine ⟨fun n => ?_, by decide, by decide, by decide, from_rotations_emod⟩
  rw [from_rotations_emod, from_rotations_emod]
  have h : (n + 4) % 4 = n % 4 := by omega
  rw [h]

/-- C8: `from_faces` returns the canonical edge with parity 0 when the key
sticker is given first and parity 1 when the pair is reversed; in particular
`from_faces(U,R) = Some((UR, 0))` and `from_faces(R,U) = Some((UR, 1))`. -/
theorem from_faces_parity :
    EdgeType.from_faces .U .R = some (.UR, CyclicGroup.new 2 0)
    ∧ EdgeType.from_faces .R .U = some (.UR, CyclicGroup.new 2 1)
    ∧ (∀ f1 f2 : FaceType, ∀ e : EdgeType,
        EdgeType.from_faces_ordered f1 f2 = some e →
        EdgeType.from_faces f1 f2 = some (e, CyclicGroup.new 2 0)
        ∧ EdgeType.from_faces f2 f1 = some (e, CyclicGroup.new 2 1)) := by
  refine ⟨by decide, by decide, ?_⟩
  decide

/-- Witness for C8 at the concrete edge (U, R) ↦ UR. -/
theorem from_faces_parity_witness :
    EdgeType.from_faces .U .R = some (.UR, CyclicGroup.new 2 0)
    ∧ EdgeType.from_faces .R .U = some (.UR, CyclicGroup.new 2 1) :=
  from_faces_parity.2.2 .U .R .UR (by decide)

/-- C10: `from_faces` returns `None` exactly when the two faces do not meet in
an edge: when they are equal or opposite on the same axis (F/B, R/L, U/D). -/
theorem from_faces_none_iff :
    ∀ f1 f2 : FaceType,
      EdgeType.from_faces f1 f2 = none ↔
        (f1 = f2
         ∨ ((f1 = .F ∧ f2 = .B) ∨ (f1 = .B ∧ f2 = .F)
            ∨ (f1 = .R ∧ f2 = .L) ∨ (f1 = .L ∧ f2 = .R)
            ∨ (f1 = .U ∧ f2 = .D) ∨ (f1 = .D ∧ f2 = .U))) := by
  decide

/-- C3: printing is a left inverse of parsing on the three canonical depth
ranges (0,1), (1,2), (2,3): for every axis and rotation kind, parsing the
printed form of the move and printing it again reproduces the string. -/
theorem parse_print_roundtrip (a : Axis) (rt : RotationType) (sd ed : Nat)
    (h : (sd, ed) = (0, 1) ∨ (sd, ed) = (1, 2) ∨ (sd, ed) = (2, 3)) :
    (Move.from_str (Move.toStr ⟨a, rt, sd, ed⟩)).map Move.toStr
      = some (Move.toStr ⟨a, rt, sd, ed⟩) := by
  rcases h with h | h | h <;>
    · simp only [Prod.mk.injEq] at h
      obtain ⟨rfl, rfl⟩ := h
      cases a <;> cases rt <;> decide

/-- Witness for C3 at the move R (axis RL, normal rotation, depths (0,1)). -/
theorem parse_print_roundtrip_witness :
    (Move.from_str (Move.toStr ⟨.RL, .Normal, 0, 1⟩)).map Move.toStr
      = some (Move.toStr ⟨.RL, .Normal, 0, 1⟩) :=
  parse_print_roundtrip .RL .Normal 0 1 (Or.inl rfl)

lemma from_str_cons_F (mods : List Char) :
    Move.from_str (String.mk ('F' :: mods)) = frontParse .FB 1 mods := rfl

lemma from_str_cons_R (mods : List Char) :
    Move.from_str (String.mk ('R' :: mods)) = frontParse .RL 1 mods := rfl

lemma from_str_cons_U (mods : List Char) :
    Move.from_str (String.mk ('U' :: mods)) = frontParse .UD 1 mods := rfl

lemma from_str_cons_B (mods : List Char) :
    Move.from_str (String.mk ('B' :: mods)) = backParse .FB 1 mods := rfl

lemma from_str_cons_L (mods : List Char) :
    Move.from_str (String.mk ('L' :: mods)) = backParse .RL 1 mods := rfl

lemma from_str_cons_D (mods : List Char) :
    Move.from_str (String.mk ('D' :: mods)) = backParse .UD 1 mods := rfl

lemma from_str_cons_f (mods : List Char) :
    Move.from_str (String.mk ('f' :: mods)) = frontParse .FB 2 mods := rfl

lemma from_str_cons_r (mods : List Char) :
    Move.from_str (String.mk ('r' :: mods)) = frontParse .RL 2 mods := rfl

lemma from_str_cons_u (mods : List Char) :
    Move.from_str (String.mk ('u' :: mods)) = frontParse .UD 2 mods := rfl

lemma from_str_cons_b (mods : List Char) :
    Move.from_str (String.mk ('b' :: mods)) = backParse .FB 2 mods := rfl

lemma from_str_cons_l (mods : List Char) :
    Move.from_str (String.mk ('l' :: mods)) = backParse .RL 2 mods := rfl

lemma from_str_cons_d (mods : List Char) :
    Move.from_str (String.mk ('d' :: mods)) = backParse .UD 2 mods := rfl

lemma front_back_mirror (ax : Axis) (E : Nat) (mods : List Char) (m : Move)
    (h : frontParse ax E mods = some m) :
    backParse ax E mods
      = some ⟨ax, m.rotation_type.inverse, 3 - m.end_depth, 3 - m.start_depth⟩ := by
  unfold frontParse at h
  unfold backParse
  cases hm : Move.applyMods mods E RotationType.Normal with
  | none => rw [hm] at h; cases h
  | some p =>
    obtain ⟨e, r⟩ := p
    rw [hm] at h
    cases h
    rfl

/-- C6: for the back-half face letters (B, L, D and lowercase) the parsed
rotation is inverted and the depth range mirrored as `start' = N - end`,
`end' = N - start`, with the layer count `N` hard-coded to 3: whenever the
same modifier string parses after the opposite front-half letter, the
back-half parse is its mirror at 3.  Concretely, `"B"` parses to
(FB, Inverse, 2, 3) and `"L'"` to (RL, Normal, 2, 3). -/
theorem back_face_mirrored_at_three :
    Move.from_str ("B") = some ⟨.FB, .Inverse, 2, 3⟩
    ∧ Move.from_str ("L'") = some ⟨.RL, .Normal, 2, 3⟩
    ∧ (∀ (mods : List Char) (m : Move),
        Move.from_str (String.mk ('F' :: mods)) = some m →
        Move.from_str (String.mk ('B' :: mods))
          = some ⟨.FB, m.rotation_type.inverse, 3 - m.end_depth, 3 - m.start_depth⟩)
    ∧ (∀ (mods : List Char) (m : Move),
        Move.from_str (String.mk ('R' :: mods)) = some m →
        Move.from_str (String.mk ('L' :: mods))
          = some ⟨.RL, m.rotation_type.inverse, 3 - m.end_depth, 3 - m.start_depth⟩)
    ∧ (∀ (mods : List Char) (m : Move),
        Move.from_str (String.mk ('U' :: mods)) = some m →
        Move.from_str (String.mk ('D' :: mods))
          = some ⟨.UD, m.rotation_type.inverse, 3 - m.end_depth, 3 - m.start_depth⟩)
    ∧ (∀ (mods : List Char) (m : Move),
        Move.from_str (String.mk ('f' :: mods)) = some m →
        Move.from_str (String.mk ('b' :: mods))
          = some ⟨.FB, m.rotation_type.inverse, 3 - m.end_depth, 3 - m.start_depth⟩)
    ∧ (∀ (mods : List Char) (m : Move),
        Move.from_str (String.mk ('r' :: mods)) = some m →
        Move.from_str (String.mk ('l' :: mods))
          = some ⟨.RL, m.rotation_type.inverse, 3 - m.end_depth, 3 - m.start_depth⟩)
    ∧ (∀ (mods : List Char) (m : Move),
        Move.from_str (String.mk ('u' :: mods)) = some m →
        Move.from_str (String.mk ('d' :: mods))
          = some ⟨.UD, m.rotation_type.inverse, 3 - m.end_depth, 3 - m.start_depth⟩) := by
  refine ⟨by decide, by decide, ?_, ?_, ?_, ?_, ?_, ?_⟩
  · intro mods m h
    rw [from_str_cons_B]
    exact front_back_mirror .FB 1 mods m ((from_str_cons_F mods) ▸ h)
  · intro mods m h
    rw [from_str_cons_L]
    exact front_back_mirror .RL 1 mods m ((from_str_cons_R mods) ▸ h)
  · intro mods m h
    rw [from_str_cons_D]
    exact front_back_mirror .UD 1 mods m ((from_str_cons_U mods) ▸ h)
  · intro mods m h
    rw [from_str_cons_b]
    exact front_back_mirror .FB 2 mods m ((from_str_cons_f mods) ▸ h)
  · intro mods m h
    rw [from_str_cons_l]
    exact front_back_mirror .RL 2 mods m ((from_str_cons_r mods) ▸ h)
  · intro mods m h
    rw [from_str_cons_d]
    exact front_back_mirror .UD 2 mods m ((from_str_cons_u mods) ▸ h)

/-- Witness for C6: the mirror law applied to the token `"F2"`/`"B2"`. -/
theorem back_face_mirrored_at_three_witness :
    Move.from_str (String.mk ['B', '2']) = some ⟨.FB, .Double, 2, 3⟩ :=
  back_face_mirrored_at_three.2.2.1 ['2'] ⟨.FB, .Double, 0, 1⟩ (by decide)

lemma applyMods_bad (x : Char) (hw : x ≠ 'w') (h2 : x ≠ '2') (hq : x ≠ '\'') :
    ∀ (mods : List Char) (e : Nat) (r : RotationType),
      x ∈ mods → Move.applyMods mods e r = none := by
  intro mods
  induction mods with
  | nil => intro e r h; cases h
  | cons c cs ih =>
    intro e r h
    rw [Move.applyMods]
    rcases List.mem_cons.mp h with rfl | hmem
    · rw [if_neg hw, if_neg h2, if_neg hq]
    · by_cases hcw : c = 'w'
      · rw [if_pos hcw]; exact ih _ _ hmem
      · by_cases hc2 : c = '2'
        · rw [if_neg hcw, if_pos hc2]; exact ih _ _ hmem
        · by_cases hcq : c = '\''
          · rw [if_neg hcw, if_neg hc2, if_pos hcq]; exact ih _ _ hmem
          · rw [if_neg hcw, if_neg hc2, if_neg hcq]

lemma parseTokens_bad (ts : List String) (t : String) (hmem : t ∈ ts)
    (hbad : Move.from_str t = none) : MoveSequence.parseTokens ts = none := by
  induction ts with
  | nil => cases hmem
  | cons u us ih =>
    rw [MoveSequence.parseTokens]
    rcases List.mem_cons.mp hmem with rfl | hmem'
    · rw [hbad]
    · cases hu : Move.from_str u with
      | none => rfl
      | some m => simp [ih hmem']

/-- C9: tokens that do not match the move grammar fail to parse: the empty
token, a token whose (mapped, uppercased) first character is not a face
letter, and a token with an unknown modifier character all make `Move`'s
`FromStr` return an error (no partial `Move` exists); consequently
`MoveSequence`'s `FromStr` fails whenever any space-separated token fails. -/
theorem parse_failure_no_partial_move :
    Move.from_str ("") = none
    ∧ (∀ (c : Char) (rest : List Char),
        FaceType.from_str (String.mk [(Move.turnDirection c).toUpper]) = none →
        Move.from_str (String.mk (c :: rest)) = none)
    ∧ (∀ (c : Char) (mods : List Char) (x : Char),
        x ∈ mods → x ≠ 'w' → x ≠ '2' → x ≠ '\'' →
        Move.from_str (String.mk (c :: mods)) = none)
    ∧ (∀ s : String,
        (∃ t ∈ (splitSpaces s.data).map String.mk, Move.from_str t = none) →
        MoveSequence.from_str s = none) := by
  refine ⟨rfl, ?_, ?_, ?_⟩
  · intro c rest h
    rw [show Move.from_str (String.mk (c :: rest)) = Move.fromChars (c :: rest) from rfl,
      Move.fromChars]
    rw [h]
  · intro c mods x hmem hw h2 hq
    rw [show Move.from_str (String.mk (c :: mods)) = Move.fromChars (c :: mods) from rfl,
      Move.fromChars]
    cases hface : FaceType.from_str (String.mk [(Move.turnDirection c).toUpper]) with
    | none => rfl
    | some face =>
      simp only [applyMods_bad x hw h2 hq mods _ _ hmem]
  · intro s ⟨t, hmem, hbad⟩
    rw [MoveSequence.from_str, parseTokens_bad _ t hmem hbad, Option.map_none']

/-- Witness for C9 at the tokens `"X"` (unknown letter), `"Fx"` (unknown
modifier) and the sequence `"F X"`. -/
theorem parse_failure_no_partial_move_witness :
    Move.from_str (String.mk ['X']) = none
    ∧ Move.from_str (String.mk ['F', 'x']) = none
    ∧ MoveSequence.from_str ("F X") = none :=
  ⟨parse_failure_no_partial_move.2.1 'X' [] (by decide),
   parse_failure_no_partial_move.2.2.1 'F' ['x'] 'x' (by decide) (by decide)
     (by decide) (by decide),
   parse_failure_no_partial_move.2.2.2 ("F X")
     ⟨"X", by decide, parse_failure_no_partial_move.2.1 'X' [] (by decide)⟩⟩

/-- C5: applying the single move parsed from `"F"` to a solved 3×3 cube turns
the Front face into its clockwise rotation, leaves Back entirely untouched,
and changes exactly the depth-0 adjoining line on each of Right (column 0,
now White from Up), Up (row 2, now Orange from Left), Left (column 2, now
Yellow from Down) and Down (row 0, now Red from Right), leaving every other
sticker of those faces unchanged. -/
theorem f_move_frame_effect :
    Move.from_str ("F") = some fMove3
    ∧ fTurned3.face .F = (solved3.face .F).rotate_cw
    ∧ fTurned3.face .B = solved3.face .B
    ∧ (∀ r cl : Fin 3, (fTurned3.face .R).rows r cl
        = if cl = 0 then Colour.White else (solved3.face .R).rows r cl)
    ∧ (∀ r cl : Fin 3, (fTurned3.face .U).rows r cl
        = if r = 2 then Colour.Orange else (solved3.face .U).rows r cl)
    ∧ (∀ r cl : Fin 3, (fTurned3.face .L).rows r cl
        = if cl = 2 then Colour.Yellow else (solved3.face .L).rows r cl)
    ∧ (∀ r cl : Fin 3, (fTurned3.face .D).rows r cl
        = if r = 0 then Colour.Red else (solved3.face .D).rows r cl)
    ∧ (∀ r : Fin 3, (fTurned3.face .R).rows r 0 ≠ (solved3.face .R).rows r 0)
    ∧ (∀ cl : Fin 3, (fTurned3.face .U).rows 2 cl ≠ (solved3.face .U).rows 2 cl)
    ∧ (∀ r : Fin 3, (fTurned3.face .L).rows r 2 ≠ (solved3.face .L).rows r 2)
    ∧ (∀ cl : Fin 3, (fTurned3.face .D).rows 0 cl ≠ (solved3.face .D).rows 0 cl) := by
  decide

/-- Master characterization of `Cube::perform`: for a well-formed move, the
colour at a position is read from the position `quarters` steps around the
position's slice when that slice is in the turned depth range, and is left
alone otherwise. -/
lemma perform_sticker {N : Nat} (c : Cube N) (mv : Move)
    (h1 : mv.start_depth < mv.end_depth) (h2 : mv.end_depth ≤ N) (p : Pos N) :
    (c.perform mv).sticker p =
      if mv.start_depth ≤ axSlice mv.axis p ∧ axSlice mv.axis p < mv.end_depth
      then c.sticker (axStepPow mv.axis mv.rotation_type.quarters p)
      else c.sticker p := by
  obtain ⟨ax, rot, sd, ed⟩ := mv
  obtain ⟨f, r, cl⟩ := p
  simp only at h1 h2
  cases ax <;> cases rot <;> cases f
  all_goals try rfl
  all_goals
    simp only [Cube.perform, Cube.sticker, Cube.face]
  all_goals
    try rw [apply_ite (fun (fc : Face N) => fc.rows r cl)]
  all_goals
    simp only [Face.overwrite_from, Face.row, Face.row_rev, Face.col, Face.col_rev,
      Face.rotate_cw, Face.rotate_ccw, Face.rotate_double, axSlice, axStepPow, axStep,
      RotationType.quarters, Fin.rev_rev,
      show (true != false) = true from rfl, show (false != true) = true from rfl,
      show (true != true) = false from rfl, show (false != false) = false from rfl]
  all_goals split_ifs <;> first | rfl | omega

lemma axStep_four {N : Nat} (a : Axis) (p : Pos N) : axStepPow a 4 p = p := by
  have h : axStepPow a 4 p = axStep a (axStep a (axStep a (axStep a p))) := rfl
  rw [h]
  obtain ⟨f, r, cl⟩ := p
  cases a <;> cases f <;> simp [axStep, Fin.rev_rev]

lemma axStepPow_add {N : Nat} (a : Axis) (j k : Nat) (p : Pos N) :
    axStepPow a (j + k) p = axStepPow a j (axStepPow a k p) := by
  induction j with
  | zero => rw [Nat.zero_add]; rfl
  | succ j ih =>
    have h : j + 1 + k = (j + k) + 1 := by omega
    rw [h, axStepPow, axStepPow, ih]

lemma axStepPow_mod {N : Nat} (a : Axis) (k : Nat) (p : Pos N) :
    axStepPow a k p = axStepPow a (k % 4) p := by
  induction k using Nat.strong_induction_on with
  | _ k ih =>
    by_cases hk : k < 4
    · rw [Nat.mod_eq_of_lt hk]
    · have h : k = (k - 4) + 4 := by omega
      rw [h, axStepPow_add, axStep_four, ih (k - 4) (by omega)]
      have h4 : (k - 4) % 4 = ((k - 4) + 4) % 4 := by omega
      rw [h4]

lemma stepPowMod_zero {N : Nat} (a : Axis) (p : Pos N) : stepPowMod a 0 p = p := rfl

lemma stepPowMod_add {N : Nat} (a : Axis) (t1 t2 : Int) (p : Pos N) :
    stepPowMod a (t1 + t2) p = stepPowMod a t1 (stepPowMod a t2 p) := by
  unfold stepPowMod
  rw [← axStepPow_add]
  rw [axStepPow_mod a (((t1 + t2) % 4).toNat), axStepPow_mod a ((t1 % 4).toNat + (t2 % 4).toNat)]
  have h : (((t1 + t2) % 4).toNat) % 4 = (((t1 % 4).toNat + (t2 % 4).toNat)) % 4 := by
    omega
  rw [h]

lemma stepPowMod_congr {N : Nat} (a : Axis) {t1 t2 : Int} (h : t1 % 4 = t2 % 4)
    (p : Pos N) : stepPowMod a t1 p = stepPowMod a t2 p := by
  unfold stepPowMod
  rw [h]

lemma axSlice_axStep {N : Nat} (a : Axis) (p : Pos N) :
    axSlice a (axStep a p) = axSlice a p := by
  obtain ⟨f, r, cl⟩ := p
  cases a <;> cases f <;> simp [axStep, axSlice, Fin.rev_rev]

lemma axSlice_axStepPow {N : Nat} (a : Axis) (k : Nat) (p : Pos N) :
    axSlice a (axStepPow a k p) = axSlice a p := by
  induction k with
  | zero => rfl
  | succ k ih => rw [axStepPow, axSlice_axStep, ih]

lemma axSlice_stepPowMod {N : Nat} (a : Axis) (t : Int) (p : Pos N) :
    axSlice a (stepPowMod a t p) = axSlice a p := by
  unfold stepPowMod
  rw [axSlice_axStepPow]

lemma Cube.ext_sticker {N : Nat} {c d : Cube N}
    (h : ∀ p : Pos N, c.sticker p = d.sticker p) : c = d := by
  obtain ⟨cf⟩ := c
  obtain ⟨df⟩ := d
  simp only [Cube.mk.injEq]
  funext ft
  have hf : (cf ft).rows = (df ft).rows := by
    funext r cl
    exact h (ft, r, cl)
  cases hface : cf ft
  cases hface2 : df ft
  rw [hface, hface2] at hf
  simp only at hf
  rw [hf]

lemma quarters_toNat (rot : RotationType) :
    ((rot.rotations % 4).toNat) = rot.quarters := by
  cases rot <;> rfl

/-- The lemma `perform_sticker` with the exponent expressed as the move's signed
quarter-turn count (`RotationType::rotations`) reduced mod 4. -/
lemma perform_sticker_mod {N : Nat} (c : Cube N) (mv : Move)
    (h1 : mv.start_depth < mv.end_depth) (h2 : mv.end_depth ≤ N) (p : Pos N) :
    (c.perform mv).sticker p =
      c.sticker (stepPowMod mv.axis
        (if mv.start_depth ≤ axSlice mv.axis p ∧ axSlice mv.axis p < mv.end_depth
         then mv.rotation_type.rotations else 0) p) := by
  rw [perform_sticker c mv h1 h2 p]
  split_ifs with h
  · unfold stepPowMod
    rw [quarters_toNat]
  · rfl

/-- C1: performing a well-formed move and then its inverse returns the cube
unchanged: `perform(perform(c, m), m.inverse()) = c`. -/
theorem perform_then_inverse {N : Nat} (c : Cube N) (m : Move) (hwf : m.wf N) :
    (c.perform m).perform m.inverse = c := by
  obtain ⟨h1, h2⟩ := hwf
  obtain ⟨a, rot, sd, ed⟩ := m
  simp only at h1 h2
  have hinv : (Move.mk a rot sd ed).inverse = Move.mk a rot.inverse sd ed := rfl
  rw [hinv]
  apply Cube.ext_sticker
  intro p
  rw [perform_sticker_mod (c.perform ⟨a, rot, sd, ed⟩) ⟨a, rot.inverse, sd, ed⟩ h1 h2 p]
  rw [perform_sticker_mod c ⟨a, rot, sd, ed⟩ h1 h2 _]
  dsimp only
  rw [axSlice_stepPowMod]
  rw [← stepPowMod_add]
  have hz :
      ((if sd ≤ axSlice a p ∧ axSlice a p < ed then rot.rotations else 0)
        + (if sd ≤ axSlice a p ∧ axSlice a p < ed then rot.inverse.rotations else 0)) % 4
        = (0 : Int) % 4 := by
    split_ifs with h
    · cases rot <;> rfl
    · rfl
  rw [stepPowMod_congr a hz p, stepPowMod_zero]

/-- Witness for C1 at the solved 3×3 cube and the move parsed from `"F"`. -/
theorem perform_then_inverse_witness :
    (solved3.perform fMove3).perform fMove3.inverse = solved3 :=
  perform_then_inverse solved3 fMove3 ⟨by decide, by decide⟩

/-- Counterexample to C4 as stated: canonicalising `F R R' F` gives `F F`
(the cancelled `R R'` run vanishes, leaving two adjacent same-axis runs),
and canonicalising again coalesces them into `F2`, so `canonicalise` is not
idempotent. -/
theorem canonicalise_not_idempotent :
    frrfSeq.canonicalise.canonicalise ≠ frrfSeq.canonicalise := by
  decide

lemma performAllL_append {N : Nat} (c : Cube N) (xs ys : List Move) :
    performAllL c (xs ++ ys) = performAllL (performAllL c xs) ys := by
  unfold performAllL
  rw [List.foldl_append]

lemma sliceContrib_cons (m : Move) (ms : List Move) (i : Nat) :
    sliceContrib (m :: ms) i =
      (if m.start_depth ≤ i ∧ i < m.end_depth then m.rotation_type.rotations else 0)
        + sliceContrib ms i := by
  unfold sliceContrib
  rw [List.map_cons, List.sum_cons]

lemma sliceContrib_append (xs ys : List Move) (i : Nat) :
    sliceContrib (xs ++ ys) i = sliceContrib xs i + sliceContrib ys i := by
  unfold sliceContrib
  rw [List.map_append, List.sum_append]

/-- Semantics of a same-axis move list: the net effect on each sticker is its
slice's accumulated signed quarter-turn count, reduced mod 4. -/
lemma performAllL_same_axis {N : Nat} (a : Axis) (ms : List Move)
    (h : ∀ m ∈ ms, m.axis = a ∧ m.wf N) :
    ∀ (c : Cube N) (p : Pos N),
      (performAllL c ms).sticker p
        = c.sticker (stepPowMod a (sliceContrib ms (axSlice a p)) p) := by
  induction ms with
  | nil =>
    intro c p
    rfl
  | cons m ms ih =>
    intro c p
    obtain ⟨ham, hm1, hm2⟩ := h m (List.mem_cons_self m ms)
    have hrest : ∀ m' ∈ ms, m'.axis = a ∧ m'.wf N :=
      fun m' hm' => h m' (List.mem_cons_of_mem m hm')
    rw [show performAllL c (m :: ms) = performAllL (c.perform m) ms from rfl]
    rw [ih hrest (c.perform m) p]
    rw [perform_sticker_mod c m hm1 hm2 _]
    rw [ham, axSlice_stepPowMod, ← stepPowMod_add, sliceContrib_cons]

/-- Two same-axis move lists whose per-slice counts agree mod 4 have the same
net effect on every cube. -/
lemma performAllL_congr_mod {N : Nat} (a : Axis) (ms1 ms2 : List Move)
    (h1 : ∀ m ∈ ms1, m.axis = a ∧ m.wf N) (h2 : ∀ m ∈ ms2, m.axis = a ∧ m.wf N)
    (hc : ∀ i : Nat, sliceContrib ms1 i % 4 = sliceContrib ms2 i % 4) (c : Cube N) :
    performAllL c ms1 = performAllL c ms2 := by
  apply Cube.ext_sticker
  intro p
  rw [performAllL_same_axis a ms1 h1 c p, performAllL_same_axis a ms2 h2 c p]
  rw [stepPowMod_congr a (hc (axSlice a p)) p]

lemma from_rotations_none_mod (n : Int)
    (h : RotationType.from_rotations n = none) : n % 4 = 0 := by
  rw [from_rotations_emod] at h
  split_ifs at h with h0 h1 h2
  · exact h0

lemma from_rotations_some_mod (n : Int) (rt : RotationType)
    (h : RotationType.from_rotations n = some rt) : rt.rotations % 4 = n % 4 := by
  rw [from_rotations_emod] at h
  have hn : n % 4 = 0 ∨ n % 4 = 1 ∨ n % 4 = 2 ∨ n % 4 = 3 := by omega
  split_ifs at h with h0 h1 h2 <;> cases h <;> simp [RotationType.rotations] <;> omega

/-- The coalescing loop emits moves whose per-slice counts agree (mod 4) with
the pending block plus the remaining entries. -/
lemma emitLoop_contrib (a : Axis) :
    ∀ (entries : List (Nat × Int)) (nm : List Move) (cs es : Nat) (er : Int),
      cs < es →
      ∀ i : Nat, sliceContrib (emitLoop a entries nm cs es er) i % 4
        = (sliceContrib nm i + (if cs ≤ i ∧ i < es then er else 0)
            + entryVal entries i) % 4 := by
  intro entries
  induction entries with
  | nil =>
    intro nm cs es er hlt i
    rw [emitLoop]
    cases hfr : RotationType.from_rotations er with
    | none =>
      have h0 := from_rotations_none_mod er hfr
      rw [List.append_nil]
      unfold entryVal
      simp only [List.map_nil, List.sum_nil]
      split_ifs <;> omega
    | some rt =>
      have hmod := from_rotations_some_mod er rt hfr
      rw [sliceContrib_append, sliceContrib_cons]
      unfold entryVal sliceContrib
      simp only [List.map_nil, List.sum_nil]
      split_ifs <;> omega
  | cons e rest ih =>
    intro nm cs es er hlt i
    obtain ⟨k, v⟩ := e
    rw [emitLoop]
    by_cases hke : k = es ∧ v = er
    · rw [if_pos hke]
      obtain ⟨hk, hv⟩ := hke
      rw [ih nm cs (es + 1) er (by omega) i]
      unfold entryVal
      rw [List.map_cons, List.sum_cons]
      dsimp only
      subst hk hv
      split_ifs <;> omega
    · rw [if_neg hke]
      cases hfr : RotationType.from_rotations er with
      | none =>
        have h0 := from_rotations_none_mod er hfr
        rw [ih _ k (k + 1) v (by omega) i]
        rw [List.append_nil]
        unfold entryVal
        rw [List.map_cons, List.sum_cons]
        dsimp only
        split_ifs <;> omega
      | some rt =>
        have hmod := from_rotations_some_mod er rt hfr
        rw [ih _ k (k + 1) v (by omega) i]
        rw [sliceContrib_append, sliceContrib_cons]
        unfold entryVal
        rw [List.map_cons, List.sum_cons]
        dsimp only
        rw [show sliceContrib [] i = 0 from rfl]
        split_ifs <;> omega

lemma entryVal_cons (e : Nat × Int) (rest : List (Nat × Int)) (i : Nat) :
    entryVal (e :: rest) i = (if e.1 = i then e.2 else 0) + entryVal rest i := by
  unfold entryVal
  rw [List.map_cons, List.sum_cons]

lemma sliceContrib_of_not_touches (ms : List Move) (i : Nat)
    (h : touches ms i = false) : sliceContrib ms i = 0 := by
  induction ms with
  | nil => rfl
  | cons m rest ih =>
    unfold touches at h
    rw [List.any_cons] at h
    simp only [Bool.or_eq_false_iff] at h
    rw [sliceContrib_cons, if_neg (by simpa using h.1), ih h.2, Int.add_zero]

lemma init_le_maxEnd_foldl (ms : List Move) :
    ∀ acc : Nat, acc ≤ ms.foldl (fun a mv => max a mv.end_depth) acc := by
  induction ms with
  | nil => intro acc; exact Nat.le_refl acc
  | cons m rest ih =>
    intro acc
    rw [List.foldl_cons]
    exact le_trans (Nat.le_max_left acc m.end_depth) (ih _)

lemma end_le_maxEnd_of_mem {mv : Move} {ms : List Move} (h : mv ∈ ms) :
    ∀ acc : Nat, mv.end_depth ≤ ms.foldl (fun a m => max a m.end_depth) acc := by
  induction ms with
  | nil => cases h
  | cons m rest ih =>
    intro acc
    rw [List.foldl_cons]
    rcases List.mem_cons.mp h with rfl | hmem
    · exact le_trans (Nat.le_max_right acc mv.end_depth) (init_le_maxEnd_foldl rest _)
    · exact ih hmem _

lemma lt_maxEnd_of_touches (ms : List Move) (i : Nat)
    (h : touches ms i = true) : i < maxEnd ms := by
  unfold touches at h
  rw [List.any_eq_true] at h
  obtain ⟨mv, hmem, hcov⟩ := h
  simp only [decide_eq_true_eq] at hcov
  exact Nat.lt_of_lt_of_le hcov.2 (end_le_maxEnd_of_mem hmem 0)

lemma maxEnd_le_of_wf {N : Nat} (ms : List Move) (h : ∀ m ∈ ms, m.end_depth ≤ N) :
    maxEnd ms ≤ N := by
  unfold maxEnd
  suffices hgen : ∀ acc : Nat, acc ≤ N →
      ms.foldl (fun a mv => max a mv.end_depth) acc ≤ N by
    exact hgen 0 (Nat.zero_le N)
  induction ms with
  | nil => intro acc hacc; exact hacc
  | cons m rest ih =>
    intro acc hacc
    rw [List.foldl_cons]
    exact ih (fun m' hm' => h m' (List.mem_cons_of_mem m hm'))
      _ (Nat.max_le.mpr ⟨hacc, h m (List.mem_cons_self m rest)⟩)

lemma entryVal_map_nodup (f : Nat → Int) (i : Nat) :
    ∀ l : List Nat, l.Nodup →
      entryVal (l.map (fun k => (k, f k))) i = if i ∈ l then f i else 0 := by
  intro l
  induction l with
  | nil => intro _; rfl
  | cons k ks ih =>
    intro hnd
    obtain ⟨hk, hks⟩ := List.nodup_cons.mp hnd
    unfold entryVal
    rw [List.map_map, List.map_cons, List.sum_cons]
    dsimp only [Function.comp]
    have hrest := ih hks
    unfold entryVal at hrest
    rw [List.map_map] at hrest
    rw [hrest]
    by_cases hik : k = i
    · subst hik
      rw [if_pos rfl, if_neg hk, if_pos (List.mem_cons_self k ks), Int.add_zero]
    · rw [if_neg hik]
      by_cases hmem : i ∈ ks
      · rw [if_pos hmem, if_pos (List.mem_cons_of_mem k hmem), Int.zero_add]
      · rw [if_neg hmem, Int.zero_add,
          if_neg (fun hc => (List.mem_cons.mp hc).elim (fun he => hik he.symm) hmem)]

/-- The `turns_by_slice` map agrees with the per-slice accumulation: looking
up layer `i` (with default 0) gives the net count of the run's moves at `i`. -/
lemma entryVal_turnsBySlice (ms : List Move) (i : Nat) :
    entryVal (turnsBySlice ms) i = sliceContrib ms i := by
  unfold turnsBySlice
  rw [entryVal_map_nodup _ _ _ ((List.nodup_range _).filter _)]
  by_cases hmem : i ∈ (List.range (maxEnd ms)).filter (fun j => touches ms j)
  · rw [if_pos hmem]
  · rw [if_neg hmem]
    rcases htouch : touches ms i with _ | _
    · exact (sliceContrib_of_not_touches ms i htouch).symm
    · exact absurd (List.mem_filter.mpr
        ⟨List.mem_range.mpr (lt_maxEnd_of_touches ms i htouch), htouch⟩) hmem

/-- Rust `process_axis` preserves per-slice counts mod 4. -/
lemma processAxis_contrib (a : Axis) (run : List Move) (i : Nat) :
    sliceContrib (processAxis a run) i % 4 = sliceContrib run i % 4 := by
  unfold processAxis
  cases htbs : turnsBySlice run with
  | nil =>
    have h := entryVal_turnsBySlice run i
    rw [htbs] at h
    rw [show sliceContrib [] i = 0 from rfl, ← h]
    rfl
  | cons e rest =>
    obtain ⟨k, v⟩ := e
    dsimp only
    rw [show emitLoop a ((k, v) :: rest) [] k k v = emitLoop a rest [] k (k + 1) v by
      rw [emitLoop.eq_def]
      dsimp only
      rw [if_pos ⟨rfl, rfl⟩]]
    rw [emitLoop_contrib a rest [] k (k + 1) v (by omega) i]
    have h := entryVal_turnsBySlice run i
    rw [htbs, entryVal_cons] at h
    dsimp only at h
    rw [show sliceContrib [] i = 0 from rfl, ← h]
    split_ifs <;> omega

lemma emitLoop_mem {N : Nat} (a : Axis) :
    ∀ (entries : List (Nat × Int)) (nm : List Move) (cs es : Nat) (er : Int),
      cs < es → es ≤ N → (∀ e ∈ entries, e.1 < N) →
      (∀ m ∈ nm, m.axis = a ∧ m.wf N) →
      ∀ m ∈ emitLoop a entries nm cs es er, m.axis = a ∧ m.wf N := by
  intro entries
  induction entries with
  | nil =>
    intro nm cs es er h1 h2 _ hnm m hm
    rw [emitLoop] at hm
    rcases List.mem_append.mp hm with hmem | hmem
    · exact hnm m hmem
    · cases hfr : RotationType.from_rotations er with
      | none => rw [hfr] at hmem; cases hmem
      | some rt =>
        rw [hfr] at hmem
        rcases List.mem_singleton.mp hmem with rfl
        exact ⟨rfl, h1, h2⟩
  | cons e rest ih =>
    intro nm cs es er h1 h2 hkeys hnm m hm
    obtain ⟨k, v⟩ := e
    have hkN : k < N := hkeys (k, v) (List.mem_cons_self _ _)
    have hkeys' : ∀ e ∈ rest, e.1 < N :=
      fun e he => hkeys e (List.mem_cons_of_mem _ he)
    rw [emitLoop] at hm
    by_cases hke : k = es ∧ v = er
    · rw [if_pos hke] at hm
      exact ih nm cs (es + 1) er (by omega) (by omega) hkeys' hnm m hm
    · rw [if_neg hke] at hm
      refine ih _ k (k + 1) v (by omega) (by omega) hkeys' ?_ m hm
      intro m' hm'
      rcases List.mem_append.mp hm' with hmem | hmem
      · exact hnm m' hmem
      · cases hfr : RotationType.from_rotations er with
        | none => rw [hfr] at hmem; cases hmem
        | some rt =>
          rw [hfr] at hmem
          rcases List.mem_singleton.mp hmem with rfl
          exact ⟨rfl, h1, h2⟩

lemma mem_turnsBySlice_lt (ms : List Move) :
    ∀ e ∈ turnsBySlice ms, e.1 < maxEnd ms := by
  intro e he
  unfold turnsBySlice at he
  rw [List.mem_map] at he
  obtain ⟨i, hi, rfl⟩ := he
  exact List.mem_range.mp (List.mem_filter.mp hi).1

lemma processAxis_mem {N : Nat} (a : Axis) (run : List Move)
    (hwf : ∀ m ∈ run, m.axis = a ∧ m.wf N) :
    ∀ m ∈ processAxis a run, m.axis = a ∧ m.wf N := by
  intro m hm
  have hmax : maxEnd run ≤ N :=
    maxEnd_le_of_wf run (fun m' hm' => (hwf m' hm').2.2)
  unfold processAxis at hm
  cases htbs : turnsBySlice run with
  | nil => rw [htbs] at hm; cases hm
  | cons e rest =>
    obtain ⟨k, v⟩ := e
    rw [htbs] at hm
    dsimp only at hm
    have hkN : k < N := by
      have := mem_turnsBySlice_lt run (k, v) (htbs ▸ List.mem_cons_self _ _)
      omega
    have hkeys : ∀ e ∈ rest, e.1 < N := by
      intro e he
      have := mem_turnsBySlice_lt run e (htbs ▸ List.mem_cons_of_mem _ he)
      omega
    rw [show emitLoop a ((k, v) :: rest) [] k k v = emitLoop a rest [] k (k + 1) v by
      rw [emitLoop.eq_def]
      dsimp only
      rw [if_pos ⟨rfl, rfl⟩]] at hm
    exact emitLoop_mem a rest [] k (k + 1) v (by omega) (by omega) hkeys
      (fun m' hm' => absurd hm' (List.not_mem_nil m')) m hm

/-- Rust `process_axis` preserves the net effect of the run it coalesces. -/
lemma processAxis_preserves {N : Nat} (a : Axis) (run : List Move)
    (hwf : ∀ m ∈ run, m.axis = a ∧ m.wf N) (c : Cube N) :
    performAllL c (processAxis a run) = performAllL c run :=
  performAllL_congr_mod a _ _ (processAxis_mem a run hwf) hwf
    (processAxis_contrib a run) c

/-- Invariant of the run loop: finishing the fold (emitting the pending run)
has the same net effect as the already-emitted moves followed by the pending
run and the unprocessed moves. -/
lemma canonFold_preserves {N : Nat} :
    ∀ (ms moves : List Move) (a : Axis) (run : List Move) (c : Cube N),
      (∀ m ∈ ms, m.wf N) → (∀ m ∈ run, m.axis = a ∧ m.wf N) →
      performAllL c
        ((canonFold ms (moves, a, run)).1
          ++ processAxis (canonFold ms (moves, a, run)).2.1
              (canonFold ms (moves, a, run)).2.2)
        = performAllL c (moves ++ run ++ ms) := by
  intro ms
  induction ms with
  | nil =>
    intro moves a run c _ hrun
    rw [canonFold]
    rw [performAllL_append, processAxis_preserves a run hrun, List.append_nil,
      performAllL_append]
  | cons mv rest ih =>
    intro moves a run c hwf hrun
    have hwfrest : ∀ m ∈ rest, m.wf N :=
      fun m hm => hwf m (List.mem_cons_of_mem mv hm)
    have hwfmv : mv.wf N := hwf mv (List.mem_cons_self mv rest)
    rw [canonFold]
    by_cases hax : mv.axis ≠ a
    · rw [if_pos hax]
      rw [ih (moves ++ processAxis a run) mv.axis [mv] c hwfrest
        (by intro m hm; rcases List.mem_singleton.mp hm with rfl; exact ⟨rfl, hwfmv⟩)]
      simp only [performAllL_append, List.append_assoc, List.singleton_append]
      rw [processAxis_preserves a run hrun]
    · rw [if_neg hax]
      rw [ih moves a (run ++ [mv]) c hwfrest
        (by
          intro m hm
          rcases List.mem_append.mp hm with hmem | hmem
          · exact hrun m hmem
          · rcases List.mem_singleton.mp hmem with rfl
            exact ⟨Decidable.not_not.mp hax, hwfmv⟩)]
      simp only [performAllL_append, List.append_assoc, List.singleton_append]

/-- Canonicalisation preserves the net effect of a well-formed sequence
(helper shared by the preservation and double-canonicalisation theorems). -/
lemma canonicalise_preserves_aux {N : Nat} (c : Cube N) (s : MoveSequence)
    (hwf : ∀ m ∈ s.moves, m.wf N) :
    c.perform_all s.canonicalise = c.perform_all s := by
  obtain ⟨ms⟩ := s
  cases hms : ms with
  | nil => rfl
  | cons m0 rest =>
    subst hms
    unfold MoveSequence.canonicalise
    unfold Cube.perform_all
    have h := canonFold_preserves (m0 :: rest) [] m0.axis [] c hwf
      (fun m hm => absurd hm (List.not_mem_nil m))
    rw [List.nil_append, List.nil_append] at h
    exact h

/-- C2: canonicalisation preserves the net geometric effect: for every
sequence of well-formed moves and every cube of matching size, replaying the
canonicalised sequence gives the same cube as replaying the original.  (The
per-layer counts are modelled as visited in ascending layer-index order, as
spec §4.2 step 2 requires of the unordered Rust map.) -/
theorem canonicalise_preserves_effect {N : Nat} (c : Cube N) (s : MoveSequence)
    (hwf : ∀ m ∈ s.moves, m.wf N) :
    c.perform_all s.canonicalise = c.perform_all s :=
  canonicalise_preserves_aux c s hwf

/-- Witness for C2 at the sequence `F S` on the solved 3×3 cube. -/
theorem canonicalise_preserves_effect_witness :
    solved3.perform_all (MoveSequence.mk
      [⟨.FB, .Normal, 0, 1⟩, ⟨.FB, .Normal, 1, 2⟩]).canonicalise
      = solved3.perform_all (MoveSequence.mk
          [⟨.FB, .Normal, 0, 1⟩, ⟨.FB, .Normal, 1, 2⟩]) :=
  canonicalise_preserves_effect solved3 _ (by decide)

/-- The run loop only emits well-formed moves (given well-formed input). -/
lemma canonFold_wf {N : Nat} :
    ∀ (ms moves : List Move) (a : Axis) (run : List Move),
      (∀ m ∈ ms, m.wf N) → (∀ m ∈ moves, m.wf N) →
      (∀ m ∈ run, m.axis = a ∧ m.wf N) →
      ∀ m ∈ (canonFold ms (moves, a, run)).1
          ++ processAxis (canonFold ms (moves, a, run)).2.1
              (canonFold ms (moves, a, run)).2.2,
        m.wf N := by
  intro ms
  induction ms with
  | nil =>
    intro moves a run _ hmoves hrun m hm
    rw [canonFold] at hm
    dsimp only at hm
    rcases List.mem_append.mp hm with hmem | hmem
    · exact hmoves m hmem
    · exact (processAxis_mem a run hrun m hmem).2
  | cons mv rest ih =>
    intro moves a run hwf hmoves hrun m hm
    have hwfrest : ∀ m' ∈ rest, m'.wf N :=
      fun m' hm' => hwf m' (List.mem_cons_of_mem mv hm')
    have hwfmv : mv.wf N := hwf mv (List.mem_cons_self mv rest)
    rw [canonFold] at hm
    by_cases hax : mv.axis ≠ a
    · rw [if_pos hax] at hm
      refine ih (moves ++ processAxis a run) mv.axis [mv] hwfrest ?_ ?_ m hm
      · intro m' hm'
        rcases List.mem_append.mp hm' with hmem | hmem
        · exact hmoves m' hmem
        · exact (processAxis_mem a run hrun m' hmem).2
      · intro m' hm'
        rcases List.mem_singleton.mp hm' with rfl
        exact ⟨rfl, hwfmv⟩
    · rw [if_neg hax] at hm
      refine ih moves a (run ++ [mv]) hwfrest hmoves ?_ m hm
      intro m' hm'
      rcases List.mem_append.mp hm' with hmem | hmem
      · exact hrun m' hmem
      · rcases List.mem_singleton.mp hmem with rfl
        exact ⟨Decidable.not_not.mp hax, hwfmv⟩

/-- Canonicalisation only produces well-formed moves. -/
lemma canonicalise_wf {N : Nat} (s : MoveSequence)
    (hwf : ∀ m ∈ s.moves, m.wf N) :
    ∀ m ∈ s.canonicalise.moves, m.wf N := by
  obtain ⟨ms⟩ := s
  cases hms : ms with
  | nil => subst hms; exact hwf
  | cons m0 rest =>
    subst hms
    unfold MoveSequence.canonicalise
    exact canonFold_wf (m0 :: rest) [] m0.axis [] hwf
      (fun m hm => absurd hm (List.not_mem_nil m))
      (fun m hm => absurd hm (List.not_mem_nil m))

/-- Amended C4: `canonicalise` is not idempotent as a function on sequences
(see the counterexample `F R R' F`), but a second canonicalisation cannot
change the net effect: for well-formed input, replaying
`canonicalise(canonicalise(s))` equals replaying `canonicalise(s)` on every
cube of matching size. -/
theorem canonicalise_twice_same_effect {N : Nat} (c : Cube N) (s : MoveSequence)
    (hwf : ∀ m ∈ s.moves, m.wf N) :
    c.perform_all s.canonicalise.canonicalise = c.perform_all s.canonicalise :=
  canonicalise_preserves_aux c s.canonicalise (canonicalise_wf s hwf)

/-- Witness for amended C4 at the sequence `F R R' F` on the solved 3×3
cube. -/
theorem canonicalise_twice_same_effect_witness :
    solved3.perform_all frrfSeq.canonicalise.canonicalise
      = solved3.perform_all frrfSeq.canonicalise :=
  canonicalise_twice_same_effect solved3 frrfSeq (by decide)

end Autocuber
